import Mathlib

/-!
Verification of the monolithos-installer plugin (src/unnamed/part_000, src/main.ts).

The embedding models paths and strings as lists of characters (`Str`), the
vault file system as an association list from paths to file contents together
with a list of explicitly created directories, and the host HTTP / zip
collaborators as explicit inputs (`VerifyOutcome`, `FetchResult`).  JSON
documents are modelled structurally: the appearance configuration document is
an `Appearance` record (its declared shape in the source is
`enabledCssSnippets?: string[]` plus arbitrary further fields, which we keep
as an opaque field list); serialization (`JSON.stringify(..., null, 2)`) and
parsing (`JSON.parse`) are represented by storing the structured document in a
`FileContent.json` constructor, with `FileContent.malformed` standing for text
that `JSON.parse` rejects.
-/

set_option maxRecDepth 4000

abbrev Str := List Char

/-- JS `hay.startsWith(needle)` on strings modelled as char lists. -/
def startsWith : Str → Str → Bool
  | _, [] => true
  | [], _ :: _ => false
  | c :: cs, d :: ds => if c = d then startsWith cs ds else false

/-- JS `hay.includes(needle)` (substring containment anywhere). -/
def containsSub (needle : Str) : Str → Bool
  | [] => startsWith [] needle
  | c :: rest => startsWith (c :: rest) needle || containsSub needle rest

/-- JS `hay.substring(hay.indexOf(needle))`: the suffix of `hay` starting at the
first occurrence of `needle` (meaningful when `containsSub needle hay`). -/
def suffixFrom (needle : Str) : Str → Str
  | [] => []
  | c :: rest => if startsWith (c :: rest) needle then c :: rest else suffixFrom needle rest

/-- JS `hay.endsWith(needle)`. -/
def endsWith (hay needle : Str) : Bool := startsWith hay.reverse needle.reverse

/-- Characters of `p` strictly before the last `'/'`, `none` when `p` has no
slash.  Mirrors `targetPath.substring(0, targetPath.lastIndexOf('/'))` (the JS
expression yields `""` when `lastIndexOf` returns `-1`). -/
def dirOfAux : Str → Option Str
  | [] => none
  | c :: rest =>
    match dirOfAux rest with
    | some d => some (c :: d)
    | none => if c = '/' then some [] else none

/-- JS `targetPath.substring(0, targetPath.lastIndexOf('/'))`. -/
def dirOf (p : Str) : Str := (dirOfAux p).getD []

/-- JS `path.split('/')` last component. -/
def baseName (p : Str) : Str := (p.reverse.takeWhile (fun c => !decide (c = '/'))).reverse

/-- JS `s.replace(needle, '')`: delete the first occurrence of `needle`. -/
def replaceFirst (needle : Str) : Str → Str
  | [] => []
  | c :: rest =>
    if startsWith (c :: rest) needle then List.drop needle.length (c :: rest)
    else c :: replaceFirst needle rest

/-- The appearance configuration document (`AppearanceConfig` in the source):
an optional `enabledCssSnippets` array plus arbitrary other fields, kept
opaque. -/
structure Appearance where
  enabledCssSnippets : Option (List Str)
  other : List (Str × Str)
deriving DecidableEq

/-- Content of a file in the vault.  `bin` is binary data written from the
archive, `json` a structurally well-formed appearance document, `malformed`
text rejected by `JSON.parse`. -/
inductive FileContent where
  | bin (bytes : List Nat)
  | json (doc : Appearance)
  | malformed (text : String)
deriving DecidableEq

abbrev FileList := List (Str × FileContent)

/-- First entry with the given key, the content the adapter would read. -/
def lookupFile : FileList → Str → Option FileContent
  | [], _ => none
  | e :: rest, p => if e.1 = p then some e.2 else lookupFile rest p

def eraseFile : FileList → Str → FileList
  | [], _ => []
  | e :: rest, p => if e.1 = p then eraseFile rest p else e :: eraseFile rest p

/-- `adapter.writeBinary` / `adapter.write`: overwrite the file at `p`. -/
def writeFile (fs : FileList) (p : Str) (c : FileContent) : FileList :=
  eraseFile fs p ++ [(p, c)]

/-- The vault file system: files plus explicitly created directories. -/
structure VaultFS where
  files : FileList
  dirs : List Str
deriving DecidableEq

/-- `q` lives at or under the directory path `p`. -/
def underPath (p q : Str) : Bool := decide (p = q) || startsWith q (p ++ ['/'])

/-- `adapter.exists`: a path exists when some file or created directory lives
at it or under it (real-filesystem semantics for directories). -/
def existsPath (v : VaultFS) (p : Str) : Bool :=
  v.files.any (fun e => underPath p e.1) || v.dirs.any (fun d => underPath p d)

/-- `adapter.mkdir`. -/
def addDir (v : VaultFS) (d : Str) : VaultFS := { v with dirs := v.dirs ++ [d] }

def writeVault (v : VaultFS) (p : Str) (c : FileContent) : VaultFS :=
  { v with files := writeFile v.files p c }

/-- `p` is a direct child of directory `dir` (used by `adapter.list(...).files`). -/
def isDirectChild (dir p : Str) : Bool :=
  startsWith p (dir ++ ['/']) && !((p.drop (dir.length + 1)).any (fun c => decide (c = '/')))

/-- `adapter.list(d).files`: the vault files directly inside directory `d`. -/
def listFiles : FileList → Str → List Str
  | [], _ => []
  | e :: rest, d => if isDirectChild d e.1 then e.1 :: listFiles rest d else listFiles rest d

/-- The persisted settings record (`MonolithosInstallerSettings`). -/
structure MonolithosInstallerSettings where
  licenseKey : String
  installed : Bool
  installedVersion : String
deriving DecidableEq

/-- The JSON body of a well-formed verification response: `valid` (truthiness
of the `valid` field), optional `tier` and `message` fields. -/
structure VerifyResponse where
  valid : Bool
  tier : Option String
  message : Option String
deriving DecidableEq

/-- Outcome of the `requestUrl` POST plus `response.json` access: either some
transport/parse failure (anything thrown inside the `try`) or a response. -/
inductive VerifyOutcome where
  | failure
  | response (r : VerifyResponse)
deriving DecidableEq

/-- The result object returned by `verifyLicense`. -/
structure VerifyResult where
  valid : Bool
  tier : Option String
  error : Option String
deriving DecidableEq

/-- JS `m || 'Invalid license key'` (`undefined` and `""` are falsy). -/
def orDefault (m : Option String) (d : String) : String :=
  match m with
  | some s => if s = "" then d else s
  | none => d

/-- `verifyLicense` from the source: the `try` block interprets the response
JSON; any thrown error is caught and turned into a result object, so the
function is total (never throws). -/
def verifyLicense : VerifyOutcome → VerifyResult
  | .failure => ⟨false, none, some "Could not connect to server"⟩
  | .response r =>
    if r.valid then ⟨true, r.tier, none⟩
    else ⟨false, none, some (orDefault r.message "Invalid license key")⟩

/-- One entry of the decoded zip archive. -/
structure ZipEntry where
  path : Str
  dir : Bool
  content : FileContent
deriving DecidableEq

def pluginsToken : Str := "plugins/monolithos/".data

def snippetsToken : Str := "snippets/".data

/-- Target-path classification from step 4 of `installMonolithos`:
`file.path.includes('plugins/monolithos/')` maps the suffix from the first
occurrence under the config dir, else likewise for `'snippets/'`, else the
entry is skipped. -/
def classifyEntry (cfg : Str) (p : Str) : Option Str :=
  if containsSub pluginsToken p then some (cfg ++ '/' :: suffixFrom pluginsToken p)
  else if containsSub snippetsToken p then some (cfg ++ '/' :: suffixFrom snippetsToken p)
  else none

/-- Step 3 of `installMonolithos`: keep the non-directory entries. -/
def installFilesOf (entries : List ZipEntry) : List ZipEntry :=
  entries.filter (fun e => !e.dir)

/-- The sequence of (target path, content) writes step 4 performs. -/
def installWrites (cfg : Str) : List ZipEntry → List (Str × FileContent)
  | [] => []
  | e :: rest =>
    match classifyEntry cfg e.path with
    | some t => (t, e.content) :: installWrites cfg rest
    | none => installWrites cfg rest

/-- Step 4 of `installMonolithos`: for each entry classify its target, ensure
the parent directory exists, and write the content.  `fails` is the set of
target paths at which `adapter.writeBinary` throws; the loop stops at the
first such throw, returning the vault as mutated so far and the error. -/
def writeLoop (cfg : Str) (fails : List Str) : VaultFS → List ZipEntry → VaultFS × Option String
  | v, [] => (v, none)
  | v, e :: rest =>
    match classifyEntry cfg e.path with
    | none => writeLoop cfg fails v rest
    | some t =>
      let d := dirOf t
      let v1 := if !d.isEmpty && !existsPath v d then addDir v d else v
      if t ∈ fails then (v1, some "Write failed")
      else writeLoop cfg fails (writeVault v1 t e.content) rest

def appearancePath (cfg : Str) : Str := cfg ++ "/appearance.json".data

def snippetsDir (cfg : Str) : Str := cfg ++ "/snippets".data

def cssExt : Str := ".css".data

/-- `JSON.parse` of a stored file, typed as `AppearanceConfig`. -/
def parseAppearance : FileContent → Option Appearance
  | .json a => some a
  | _ => none

/-- The read phase of `enableSnippets`: the document at the fixed path when it
exists and parses, the empty object when the path does not exist, `none` when
reading or parsing throws (the surrounding `catch` then returns). -/
def readAppearanceDoc (cfg : Str) (v : VaultFS) : Option Appearance :=
  if existsPath v (appearancePath cfg) then
    match lookupFile v.files (appearancePath cfg) with
    | some c => parseAppearance c
    | none => none
  else some ⟨none, []⟩

/-- The `.css` direct children of directory `d`. -/
def cssList (fs : FileList) (d : Str) : List Str :=
  (listFiles fs d).filter (fun p => endsWith p cssExt)

/-- `enableSnippets` snippet-name computation: list the snippets directory,
keep `.css` files, take the base name and strip the first `.css`. -/
def snippetNames (cfg : Str) (fs : FileList) : List Str :=
  (cssList fs (snippetsDir cfg)).map (fun p => replaceFirst cssExt (baseName p))

def monolithosKeywords : List Str :=
  ["monolithos".data, "sovereign".data, "archive".data, "chamber".data,
   "oracle".data, "canvas".data]

/-- The brand-keyword test on a snippet name. -/
def isMonolithosName (n : Str) : Bool :=
  monolithosKeywords.any (fun k => containsSub k n)

/-- The push loop of `enableSnippets`: append each keyword-matching name that
is not already in the list. -/
def pushAll (acc : List Str) (names : List Str) : List Str :=
  names.foldl (fun cur n =>
    if isMonolithosName n = true ∧ ¬ n ∈ cur then cur ++ [n] else cur) acc

/-- `enableSnippets` from the source: read (or default) the appearance
document; when reading/parsing throws the `catch` absorbs the error and
nothing is written; when the snippets directory exists, push the matching
snippet names and write the updated document back; otherwise do nothing. -/
def enableSnippets (cfg : Str) (v : VaultFS) : VaultFS :=
  match readAppearanceDoc cfg v with
  | none => v
  | some a =>
    if existsPath v (snippetsDir cfg) then
      let enabled := pushAll (a.enabledCssSnippets.getD []) (snippetNames cfg v.files)
      writeVault v (appearancePath cfg) (.json { a with enabledCssSnippets := some enabled })
    else v

/-- Outcome of steps 1–2 (download, zip decode), supplied by the environment. -/
inductive FetchResult where
  | downloadFailure (msg : String)
  | decodeFailure (msg : String)
  | fetched (entries : List ZipEntry)
deriving DecidableEq

/-- The collaborators `installMonolithos` interacts with: the download/decode
outcome and the set of target paths at which a write throws. -/
structure InstallEnv where
  fetch : FetchResult
  writeFails : List Str
deriving DecidableEq

/-- Plugin state: the vault plus the persisted settings record. -/
structure PluginState where
  vault : VaultFS
  settings : MonolithosInstallerSettings
deriving DecidableEq

def progressDownload : String := "Downloading Monolithos..."

def progressExtract : String := "Extracting files..."

def progressInstall : String := "Installing files..."

def progressConfigure : String := "Configuring appearance..."

def progressComplete : String := "Installation complete!"

/-- `installMonolithos` from the source.  Returns the result (`.ok true` on
success, `.error` when a step throws — the source `catch` logs and rethrows),
the resulting plugin state, and the list of progress strings reported through
the callback, in order of emission. -/
def installMonolithos (cfg : Str) (env : InstallEnv) (st : PluginState) :
    Except String Bool × PluginState × List String :=
  match env.fetch with
  | .downloadFailure m => (.error m, st, [progressDownload])
  | .decodeFailure m => (.error m, st, [progressDownload, progressExtract])
  | .fetched entries =>
    match writeLoop cfg env.writeFails st.vault (installFilesOf entries) with
    | (v, some m) =>
      (.error m, { st with vault := v }, [progressDownload, progressExtract, progressInstall])
    | (v, none) =>
      (.ok true,
       { vault := enableSnippets cfg v,
         settings := { st.settings with installed := true, installedVersion := "1.0.0" } },
       [progressDownload, progressExtract, progressInstall, progressConfigure,
        progressComplete])

/-- Keys-aware normal form apparatus for reasoning about write sequences. -/
def dropKeys (ks : List Str) : FileList → FileList
  | [] => []
  | e :: rest => if e.1 ∈ ks then dropKeys ks rest else e :: dropKeys ks rest

def applyWrites : FileList → List (Str × FileContent) → FileList
  | fs, [] => fs
  | fs, w :: ws => applyWrites (writeFile fs w.1 w.2) ws

def writeKeys (ws : List (Str × FileContent)) : List Str := ws.map Prod.fst

/-- Whether the enabled-snippets list stored at the appearance path is
duplicate-free (vacuously true when no parsed document is stored there). -/
def enabledNodupB (cfg : Str) (fs : FileList) : Bool :=
  match lookupFile fs (appearancePath cfg) with
  | some (.json a) => decide (a.enabledCssSnippets.getD []).Nodup
  | _ => true



theorem startsWith_nil_right (l : Str) : startsWith l [] = true := by
  cases l <;> rfl

theorem startsWith_append_self (a b : Str) : startsWith (a ++ b) a = true := by
  induction a with
  | nil => exact startsWith_nil_right b
  | cons c cs ih => simp [startsWith, ih]

theorem startsWith_iff (hay n : Str) : startsWith hay n = true ↔ ∃ r, hay = n ++ r := by
  induction n generalizing hay with
  | nil =>
    constructor
    · intro _; exact ⟨hay, rfl⟩
    · intro _; exact startsWith_nil_right hay
  | cons d ds ih =>
    cases hay with
    | nil =>
      simp [startsWith]
    | cons c cs =>
      simp only [startsWith]
      by_cases hc : c = d
      · subst hc
        rw [if_pos rfl, ih cs]
        constructor
        · rintro ⟨r, rfl⟩
          exact ⟨r, rfl⟩
        · rintro ⟨r, hr⟩
          rw [List.cons_append] at hr
          cases hr
          exact ⟨r, rfl⟩
      · rw [if_neg hc]
        constructor
        · intro h
          simp at h
        · rintro ⟨r, hr⟩
          rw [List.cons_append] at hr
          cases hr
          exact absurd rfl hc

theorem startsWith_cancel (x a b : Str) : startsWith (x ++ a) (x ++ b) = startsWith a b := by
  induction x with
  | nil => rfl
  | cons c cs ih => simp [startsWith, ih]

theorem startsWith_append_of_le (a b n : Str) (h : n.length ≤ a.length) :
    startsWith (a ++ b) n = startsWith a n := by
  induction n generalizing a with
  | nil => simp [startsWith_nil_right]
  | cons d ds ih =>
    cases a with
    | nil => simp at h
    | cons c cs =>
      simp only [List.cons_append, startsWith]
      by_cases hc : c = d
      · simp only [if_pos hc]
        exact ih cs (by simpa using h)
      · simp [if_neg hc]

theorem endsWith_append_of_le (a s n : Str) (h : n.length ≤ s.length) :
    endsWith (a ++ s) n = endsWith s n := by
  unfold endsWith
  rw [List.reverse_append]
  exact startsWith_append_of_le s.reverse a.reverse n.reverse (by simpa using h)

theorem append_cancel_eq (x a b : Str) : (x ++ a = x ++ b) ↔ a = b := by
  induction x with
  | nil => simp
  | cons c cs ih => simp [ih]

theorem suffixFrom_starts (n : Str) :
    ∀ p, containsSub n p = true → startsWith (suffixFrom n p) n = true := by
  intro p
  induction p with
  | nil =>
    intro h
    simp only [containsSub] at h
    cases n with
    | nil => rfl
    | cons d ds => simp [startsWith] at h
  | cons c rest ih =>
    intro h
    simp only [containsSub, Bool.or_eq_true] at h
    by_cases hs : startsWith (c :: rest) n = true
    · simp [suffixFrom, hs]
    · have hr : containsSub n rest = true := by
        rcases h with h | h
        · exact absurd h hs
        · exact h
      simp [suffixFrom, hs, ih hr]

theorem suffixFrom_is_suffix (n : Str) : ∀ p, ∃ r, p = r ++ suffixFrom n p := by
  intro p
  induction p with
  | nil => exact ⟨[], rfl⟩
  | cons c rest ih =>
    by_cases hs : startsWith (c :: rest) n = true
    · exact ⟨[], by simp [suffixFrom, hs]⟩
    · obtain ⟨r, hr⟩ := ih
      refine ⟨c :: r, ?_⟩
      rw [suffixFrom, if_neg hs, List.cons_append]
      exact congrArg (c :: ·) hr

theorem suffixFrom_longest (n : Str) :
    ∀ p r s, p = r ++ s → startsWith s n = true → s.length ≤ (suffixFrom n p).length := by
  intro p
  induction p with
  | nil =>
    intro r s h _
    obtain ⟨-, hs⟩ := List.append_eq_nil.mp h.symm
    simp [hs]
  | cons c rest ih =>
    intro r s h hs
    by_cases hc : startsWith (c :: rest) n = true
    · rw [show suffixFrom n (c :: rest) = c :: rest from by rw [suffixFrom, if_pos hc]]
      rw [h, List.length_append]
      omega
    · cases r with
      | nil =>
        simp only [List.nil_append] at h
        subst h
        exact absurd hs hc
      | cons c2 r2 =>
        simp only [List.cons_append, List.cons.injEq] at h
        obtain ⟨-, h2⟩ := h
        rw [suffixFrom, if_neg hc]
        exact ih r2 s h2 hs

theorem dirOfAux_spec : ∀ p d, dirOfAux p = some d → ∃ r, p = d ++ '/' :: r := by
  intro p
  induction p with
  | nil => intro d h; cases h
  | cons c rest ih =>
    intro d h
    simp only [dirOfAux] at h
    cases hrec : dirOfAux rest with
    | some d2 =>
      rw [hrec] at h
      cases h
      obtain ⟨r, hr⟩ := ih d2 hrec
      exact ⟨r, by simp [hr]⟩
    | none =>
      rw [hrec] at h
      by_cases hc : c = '/'
      · rw [if_pos hc] at h
        cases h
        exact ⟨rest, by simp [hc]⟩
      · rw [if_neg hc] at h
        cases h

theorem lookupFile_append (a b : FileList) (p : Str) :
    lookupFile (a ++ b) p =
      match lookupFile a p with
      | some c => some c
      | none => lookupFile b p := by
  induction a with
  | nil => rfl
  | cons e rest ih =>
    by_cases he : e.1 = p
    · simp [lookupFile, he]
    · simp [lookupFile, he, ih]

theorem lookupFile_mem {fs : FileList} {p : Str} {c : FileContent}
    (h : lookupFile fs p = some c) : (p, c) ∈ fs := by
  induction fs with
  | nil => cases h
  | cons e rest ih =>
    by_cases he : e.1 = p
    · rw [lookupFile, if_pos he] at h
      cases h
      have hpe : (p, e.2) = e := by rw [← he]
      rw [hpe]
      exact List.mem_cons_self _ _
    · rw [lookupFile, if_neg he] at h
      exact List.mem_cons_of_mem e (ih h)

theorem mem_eraseFile {fs : FileList} {q : Str} {e : Str × FileContent} :
    e ∈ eraseFile fs q ↔ e ∈ fs ∧ e.1 ≠ q := by
  induction fs with
  | nil => simp [eraseFile]
  | cons f rest ih =>
    by_cases hf : f.1 = q
    · rw [eraseFile, if_pos hf, ih]
      constructor
      · rintro ⟨h1, h2⟩
        exact ⟨List.mem_cons_of_mem f h1, h2⟩
      · rintro ⟨h1, h2⟩
        rcases List.mem_cons.mp h1 with h | h
        · subst h; exact absurd hf h2
        · exact ⟨h, h2⟩
    · rw [eraseFile, if_neg hf]
      constructor
      · intro h
        rcases List.mem_cons.mp h with h | h
        · subst h; exact ⟨List.mem_cons_self _ _, hf⟩
        · obtain ⟨h1, h2⟩ := ih.mp h
          exact ⟨List.mem_cons_of_mem f h1, h2⟩
      · rintro ⟨h1, h2⟩
        rcases List.mem_cons.mp h1 with h | h
        · subst h; exact List.mem_cons_self _ _
        · exact List.mem_cons_of_mem f (ih.mpr ⟨h, h2⟩)

theorem eraseFile_append (a b : FileList) (p : Str) :
    eraseFile (a ++ b) p = eraseFile a p ++ eraseFile b p := by
  induction a with
  | nil => rfl
  | cons e rest ih =>
    by_cases he : e.1 = p
    · simp [eraseFile, he, ih]
    · simp [eraseFile, he, ih]

theorem eraseFile_eq_self {fs : FileList} {p : Str} (h : ∀ e ∈ fs, e.1 ≠ p) :
    eraseFile fs p = fs := by
  induction fs with
  | nil => rfl
  | cons e rest ih =>
    rw [eraseFile, if_neg (h e (List.mem_cons_self _ _))]
    rw [ih (fun f hf => h f (List.mem_cons_of_mem e hf))]

theorem eraseFile_eraseFile (fs : FileList) (p : Str) :
    eraseFile (eraseFile fs p) p = eraseFile fs p :=
  eraseFile_eq_self (fun _ he => (mem_eraseFile.mp he).2)

theorem lookupFile_eraseFile (fs : FileList) (q p : Str) :
    lookupFile (eraseFile fs q) p = if p = q then none else lookupFile fs p := by
  induction fs with
  | nil => simp [eraseFile, lookupFile]
  | cons e rest ih =>
    by_cases he : e.1 = q
    · rw [eraseFile, if_pos he, ih]
      by_cases hp : p = q
      · simp [hp]
      · rw [if_neg hp, if_neg hp, lookupFile, if_neg ?_]
        intro hh
        exact hp (by rw [← hh]; exact he)
    · rw [eraseFile, if_neg he]
      by_cases hep : e.1 = p
      · rw [lookupFile, if_pos hep, if_neg (fun hpq => he (hep.trans hpq)),
          lookupFile, if_pos hep]
      · rw [lookupFile, if_neg hep, ih]
        by_cases hp : p = q
        · simp [hp]
        · rw [if_neg hp, if_neg hp, lookupFile, if_neg hep]

theorem dropKeys_nil_keys (fs : FileList) : dropKeys [] fs = fs := by
  induction fs with
  | nil => rfl
  | cons e rest ih => simp [dropKeys, ih]

theorem dropKeys_append (ks : List Str) (a b : FileList) :
    dropKeys ks (a ++ b) = dropKeys ks a ++ dropKeys ks b := by
  induction a with
  | nil => rfl
  | cons e rest ih =>
    by_cases he : e.1 ∈ ks
    · simp [dropKeys, he, ih]
    · simp [dropKeys, he, ih]

theorem mem_dropKeys {ks : List Str} {fs : FileList} {e : Str × FileContent} :
    e ∈ dropKeys ks fs ↔ e ∈ fs ∧ e.1 ∉ ks := by
  induction fs with
  | nil => simp [dropKeys]
  | cons f rest ih =>
    by_cases hf : f.1 ∈ ks
    · rw [dropKeys, if_pos hf, ih]
      constructor
      · rintro ⟨h1, h2⟩
        exact ⟨List.mem_cons_of_mem f h1, h2⟩
      · rintro ⟨h1, h2⟩
        rcases List.mem_cons.mp h1 with h | h
        · subst h; exact absurd hf h2
        · exact ⟨h, h2⟩
    · rw [dropKeys, if_neg hf]
      constructor
      · intro h
        rcases List.mem_cons.mp h with h | h
        · subst h; exact ⟨List.mem_cons_self _ _, hf⟩
        · obtain ⟨h1, h2⟩ := ih.mp h
          exact ⟨List.mem_cons_of_mem f h1, h2⟩
      · rintro ⟨h1, h2⟩
        rcases List.mem_cons.mp h1 with h | h
        · subst h; exact List.mem_cons_self _ _
        · exact List.mem_cons_of_mem f (ih.mpr ⟨h, h2⟩)

theorem dropKeys_eraseFile (ks : List Str) (fs : FileList) (p : Str) :
    dropKeys ks (eraseFile fs p) = dropKeys (p :: ks) fs := by
  induction fs with
  | nil => rfl
  | cons e rest ih =>
    by_cases hp : e.1 = p
    · rw [eraseFile, if_pos hp, ih, dropKeys, if_pos (by rw [hp]; exact List.mem_cons_self _ _)]
    · rw [eraseFile, if_neg hp]
      by_cases hk : e.1 ∈ ks
      · rw [dropKeys, if_pos hk, ih, dropKeys, if_pos (List.mem_cons_of_mem p hk)]
      · rw [dropKeys, if_neg hk, ih, dropKeys,
          if_neg (by simp [List.mem_cons, hp, hk])]

theorem dropKeys_eq_self {ks : List Str} {fs : FileList} (h : ∀ e ∈ fs, e.1 ∉ ks) :
    dropKeys ks fs = fs := by
  induction fs with
  | nil => rfl
  | cons e rest ih =>
    rw [dropKeys, if_neg (h e (List.mem_cons_self _ _))]
    rw [ih (fun f hf => h f (List.mem_cons_of_mem e hf))]

theorem dropKeys_eq_nil {ks : List Str} {fs : FileList} (h : ∀ e ∈ fs, e.1 ∈ ks) :
    dropKeys ks fs = [] := by
  induction fs with
  | nil => rfl
  | cons e rest ih =>
    rw [dropKeys, if_pos (h e (List.mem_cons_self _ _))]
    exact ih (fun f hf => h f (List.mem_cons_of_mem e hf))

theorem dropKeys_dropKeys (ks : List Str) (fs : FileList) :
    dropKeys ks (dropKeys ks fs) = dropKeys ks fs :=
  dropKeys_eq_self (fun _ he => (mem_dropKeys.mp he).2)

theorem lookupFile_dropKeys (ks : List Str) (fs : FileList) (p : Str) :
    lookupFile (dropKeys ks fs) p = if p ∈ ks then none else lookupFile fs p := by
  induction fs with
  | nil => simp [dropKeys, lookupFile]
  | cons e rest ih =>
    by_cases hk : e.1 ∈ ks
    · rw [dropKeys, if_pos hk, ih]
      by_cases hp : p ∈ ks
      · simp [hp]
      · rw [if_neg hp, if_neg hp, lookupFile,
          if_neg (fun hh : e.1 = p => hp (hh ▸ hk))]
    · rw [dropKeys, if_neg hk]
      by_cases hep : e.1 = p
      · rw [lookupFile, if_pos hep, lookupFile, if_pos hep, if_neg (hep ▸ hk)]
      · rw [lookupFile, if_neg hep, lookupFile, if_neg hep, ih]

theorem eraseFile_dropKeys (ks : List Str) (fs : FileList) (p : Str) :
    eraseFile (dropKeys ks fs) p = dropKeys (p :: ks) fs := by
  induction fs with
  | nil => rfl
  | cons e rest ih =>
    by_cases hk : e.1 ∈ ks
    · rw [dropKeys, if_pos hk, ih, dropKeys, if_pos (List.mem_cons_of_mem p hk)]
    · rw [dropKeys, if_neg hk]
      by_cases hp : e.1 = p
      · rw [eraseFile, if_pos hp, ih, dropKeys,
          if_pos (by rw [hp]; exact List.mem_cons_self _ _)]
      · rw [eraseFile, if_neg hp, ih, dropKeys, if_neg (by simp [List.mem_cons, hp, hk])]

theorem writeFile_nil (p : Str) (c : FileContent) : writeFile [] p c = [(p, c)] := rfl

theorem applyWrites_normal (ws : List (Str × FileContent)) :
    ∀ fs, applyWrites fs ws = dropKeys (writeKeys ws) fs ++ applyWrites [] ws := by
  induction ws with
  | nil =>
    intro fs
    simp [applyWrites, writeKeys, dropKeys_nil_keys]
  | cons w ws ih =>
    intro fs
    have hkeys : writeKeys (w :: ws) = w.1 :: writeKeys ws := rfl
    rw [applyWrites, ih (writeFile fs w.1 w.2), hkeys]
    rw [show applyWrites [] (w :: ws) = applyWrites [(w.1, w.2)] ws from rfl]
    rw [ih [(w.1, w.2)]]
    unfold writeFile
    rw [dropKeys_append, dropKeys_eraseFile]
    have hsingle : dropKeys (writeKeys ws) [(w.1, w.2)] =
        dropKeys (writeKeys ws) ([] ++ [(w.1, w.2)]) := rfl
    rw [List.append_assoc]

theorem mem_applyWrites_nil {ws : List (Str × FileContent)} {e : Str × FileContent}
    (h : e ∈ applyWrites [] ws) : e.1 ∈ writeKeys ws := by
  induction ws generalizing e with
  | nil => cases h
  | cons w ws ih =>
    rw [show applyWrites [] (w :: ws) = applyWrites [(w.1, w.2)] ws from rfl,
      applyWrites_normal] at h
    rcases List.mem_append.mp h with h1 | h1
    · obtain ⟨h2, -⟩ := mem_dropKeys.mp h1
      rcases List.mem_cons.mp h2 with h3 | h3
      · rw [h3]
        exact List.mem_cons_self _ _
      · cases h3
    · exact List.mem_cons_of_mem _ (ih h1)

theorem key_mem_applyWrites_nil {ws : List (Str × FileContent)} {p : Str}
    (h : p ∈ writeKeys ws) : ∃ c, (p, c) ∈ applyWrites [] ws := by
  induction ws with
  | nil => cases h
  | cons w ws ih =>
    rw [show applyWrites [] (w :: ws) = applyWrites [(w.1, w.2)] ws from rfl,
      applyWrites_normal]
    rcases List.mem_cons.mp h with h1 | h1
    · by_cases hw : p ∈ writeKeys ws
      · obtain ⟨c, hc⟩ := ih hw
        exact ⟨c, List.mem_append.mpr (Or.inr hc)⟩
      · refine ⟨w.2, List.mem_append.mpr (Or.inl ?_)⟩
        rw [h1]
        exact mem_dropKeys.mpr ⟨List.mem_cons_self _ _, h1 ▸ hw⟩
    · obtain ⟨c, hc⟩ := ih h1
      exact ⟨c, List.mem_append.mpr (Or.inr hc)⟩

theorem applyWrites_idem (fs : FileList) (ws : List (Str × FileContent)) :
    applyWrites (applyWrites fs ws) ws = applyWrites fs ws := by
  rw [applyWrites_normal ws fs, applyWrites_normal ws (dropKeys (writeKeys ws) fs ++ applyWrites [] ws)]
  rw [dropKeys_append, dropKeys_dropKeys]
  rw [dropKeys_eq_nil (fun e he => mem_applyWrites_nil he)]
  rw [List.append_nil]

theorem hasKey_applyWrites {fs : FileList} {ws : List (Str × FileContent)} {p : Str}
    (h : p ∈ writeKeys ws) : ∃ c, (p, c) ∈ applyWrites fs ws := by
  obtain ⟨c, hc⟩ := key_mem_applyWrites_nil h
  exact ⟨c, by rw [applyWrites_normal]; exact List.mem_append.mpr (Or.inr hc)⟩

theorem existsPath_of_mem {v : VaultFS} {p : Str} {e : Str × FileContent}
    (he : e ∈ v.files) (hu : underPath p e.1 = true) : existsPath v p = true := by
  unfold existsPath
  rw [Bool.or_eq_true, List.any_eq_true]
  exact Or.inl ⟨e, he, hu⟩

theorem underPath_self (p : Str) : underPath p p = true := by
  unfold underPath
  simp

theorem existsPath_of_hasKey {v : VaultFS} {p : Str} {c : FileContent}
    (h : (p, c) ∈ v.files) : existsPath v p = true :=
  existsPath_of_mem h (underPath_self p)

theorem classifyEntry_shape {cfg p t : Str} (h : classifyEntry cfg p = some t) :
    ∃ s, t = cfg ++ '/' :: s ∧
      (startsWith s pluginsToken = true ∨ startsWith s snippetsToken = true) := by
  unfold classifyEntry at h
  by_cases h1 : containsSub pluginsToken p = true
  · rw [if_pos h1] at h
    cases h
    exact ⟨suffixFrom pluginsToken p, rfl, Or.inl (suffixFrom_starts _ p h1)⟩
  · rw [if_neg h1] at h
    by_cases h2 : containsSub snippetsToken p = true
    · rw [if_pos h2] at h
      cases h
      exact ⟨suffixFrom snippetsToken p, rfl, Or.inr (suffixFrom_starts _ p h2)⟩
    · rw [if_neg h2] at h
      cases h

theorem target_ne_appearance {cfg p t : Str} (h : classifyEntry cfg p = some t) :
    t ≠ appearancePath cfg := by
  obtain ⟨s, hts, hsw⟩ := classifyEntry_shape h
  intro habs
  rw [hts] at habs
  unfold appearancePath at habs
  have h2 : '/' :: s = "/appearance.json".data := (append_cancel_eq cfg _ _).mp habs
  have h3 : s = "appearance.json".data := by
    have h4 : ("/appearance.json".data : Str) = '/' :: "appearance.json".data := by decide
    rw [h4] at h2
    exact (List.cons.injEq _ _ _ _).mp h2 |>.2
  rw [h3] at hsw
  rcases hsw with h5 | h5
  · exact absurd h5 (by decide)
  · exact absurd h5 (by decide)

theorem appearance_not_css (cfg : Str) : endsWith (appearancePath cfg) cssExt = false := by
  unfold appearancePath
  rw [endsWith_append_of_le cfg "/appearance.json".data cssExt (by decide)]
  decide

theorem underPath_snippets_appearance (cfg : Str) :
    underPath (snippetsDir cfg) (appearancePath cfg) = false := by
  unfold underPath snippetsDir appearancePath
  have h1 : decide (cfg ++ "/snippets".data = cfg ++ "/appearance.json".data) = false := by
    rw [decide_eq_false_iff_not]
    intro h
    exact absurd ((append_cancel_eq cfg _ _).mp h) (by decide)
  rw [h1, Bool.false_or]
  rw [List.append_assoc, startsWith_cancel]
  decide

theorem mkdirIf_files (v : VaultFS) (d : Str) :
    (if !d.isEmpty && !existsPath v d then addDir v d else v).files = v.files := by
  split <;> rfl

theorem mkdirIf_dirs_of_false {v : VaultFS} {d : Str}
    (h : (!d.isEmpty && !existsPath v d) = false) :
    (if !d.isEmpty && !existsPath v d then addDir v d else v) = v := by
  rw [h]
  rfl

theorem mkdir_skip {v : VaultFS} {t : Str} (hk : ∃ c, (t, c) ∈ v.files) :
    (!(dirOf t).isEmpty && !existsPath v (dirOf t)) = false := by
  obtain ⟨c, hc⟩ := hk
  cases hda : dirOfAux t with
  | none => simp [dirOf, hda]
  | some d0 =>
    cases d0 with
    | nil => simp [dirOf, hda, List.isEmpty]
    | cons x xs =>
      have hu : underPath (x :: xs) t = true := by
        obtain ⟨r, hr⟩ := dirOfAux_spec t (x :: xs) hda
        unfold underPath
        rw [hr, show ((x :: xs) ++ '/' :: r : Str) = ((x :: xs) ++ ['/']) ++ r by simp,
          startsWith_append_self]
        simp
      have he : existsPath v (x :: xs) = true := existsPath_of_mem hc hu
      simp [dirOf, hda, he]

theorem hasKey_writeFile {fs : FileList} {q p : Str} {c c2 : FileContent}
    (h : (q, c2) ∈ fs) : ∃ c3, (q, c3) ∈ writeFile fs p c := by
  by_cases hqp : q = p
  · exact ⟨c, by rw [hqp]; exact List.mem_append.mpr (Or.inr (List.mem_cons_self _ _))⟩
  · exact ⟨c2, List.mem_append.mpr (Or.inl (mem_eraseFile.mpr ⟨h, hqp⟩))⟩

theorem installWrites_mem {cfg : Str} :
    ∀ {l : List ZipEntry} {w : Str × FileContent},
      w ∈ installWrites cfg l → ∃ p, classifyEntry cfg p = some w.1 := by
  intro l
  induction l with
  | nil => intro w h; cases h
  | cons e rest ih =>
    intro w h
    cases hcl : classifyEntry cfg e.path with
    | none =>
      rw [installWrites, hcl] at h
      exact ih h
    | some t =>
      rw [installWrites, hcl] at h
      rcases List.mem_cons.mp h with h1 | h1
      · exact ⟨e.path, by rw [hcl, h1]⟩
      · exact ih h1

theorem writeLoop_none (cfg : Str) :
    ∀ (l : List ZipEntry) (v : VaultFS), (writeLoop cfg [] v l).2 = none := by
  intro l
  induction l with
  | nil => intro v; rfl
  | cons e rest ih =>
    intro v
    cases hcl : classifyEntry cfg e.path with
    | none =>
      rw [writeLoop, hcl]
      exact ih v
    | some t =>
      rw [writeLoop, hcl]
      simp only [List.not_mem_nil, if_false]
      exact ih _

theorem writeLoop_files (cfg : Str) (fails : List Str) :
    ∀ (l : List ZipEntry) (v : VaultFS), (writeLoop cfg fails v l).2 = none →
      (writeLoop cfg fails v l).1.files = applyWrites v.files (installWrites cfg l) := by
  intro l
  induction l with
  | nil => intro v _; rfl
  | cons e rest ih =>
    intro v h
    cases hcl : classifyEntry cfg e.path with
    | none =>
      rw [writeLoop, hcl] at h ⊢
      rw [installWrites, hcl]
      exact ih v h
    | some t =>
      simp only [writeLoop, hcl] at h ⊢
      rw [installWrites, hcl]
      by_cases hf : t ∈ fails
      · rw [if_pos hf] at h
        cases h
      · rw [if_neg hf] at h ⊢
        rw [ih _ h]
        have hfiles :
            (writeVault (if !(dirOf t).isEmpty && !existsPath v (dirOf t)
              then addDir v (dirOf t) else v) t e.content).files =
              writeFile v.files t e.content := by
          unfold writeVault
          rw [mkdirIf_files]
        rw [hfiles]
        rfl

theorem writeLoop_dirs (cfg : Str) :
    ∀ (l : List ZipEntry) (v : VaultFS),
      (∀ t c, (t, c) ∈ installWrites cfg l → ∃ c2, (t, c2) ∈ v.files) →
      (writeLoop cfg [] v l).1.dirs = v.dirs := by
  intro l
  induction l with
  | nil => intro v _; rfl
  | cons e rest ih =>
    intro v hk
    cases hcl : classifyEntry cfg e.path with
    | none =>
      rw [writeLoop, hcl]
      refine ih v (fun t c hm => hk t c ?_)
      rw [installWrites, hcl]
      exact hm
    | some t =>
      rw [writeLoop, hcl]
      simp only [List.not_mem_nil, if_false]
      have hkt : ∃ c2, (t, c2) ∈ v.files := by
        refine hk t e.content ?_
        rw [installWrites, hcl]
        exact List.mem_cons_self _ _
      rw [mkdirIf_dirs_of_false (mkdir_skip hkt)]
      have hdirs : (writeVault v t e.content).dirs = v.dirs := rfl
      rw [← hdirs]
      refine ih (writeVault v t e.content) (fun t2 c2 hm => ?_)
      obtain ⟨c3, hc3⟩ := hk t2 c2 (by rw [installWrites, hcl]; exact List.mem_cons_of_mem _ hm)
      exact hasKey_writeFile hc3

theorem writeLoop_error (cfg : Str) (fails : List Str) :
    ∀ (l : List ZipEntry) (v : VaultFS) (m : String), (writeLoop cfg fails v l).2 = some m →
      ∃ ws1 ws2, installWrites cfg l = ws1 ++ ws2 ∧
        (writeLoop cfg fails v l).1.files = applyWrites v.files ws1 := by
  intro l
  induction l with
  | nil => intro v m h; cases h
  | cons e rest ih =>
    intro v m h
    cases hcl : classifyEntry cfg e.path with
    | none =>
      rw [writeLoop, hcl] at h ⊢
      obtain ⟨ws1, ws2, hsplit, hfiles⟩ := ih v m h
      exact ⟨ws1, ws2, by rw [installWrites, hcl, hsplit], hfiles⟩
    | some t =>
      simp only [writeLoop, hcl] at h ⊢
      by_cases hf : t ∈ fails
      · rw [if_pos hf] at h ⊢
        refine ⟨[], (t, e.content) :: installWrites cfg rest, by simp [installWrites, hcl], ?_⟩
        rw [mkdirIf_files]
        rfl
      · rw [if_neg hf] at h ⊢
        obtain ⟨ws1, ws2, hsplit, hfiles⟩ := ih _ m h
        refine ⟨(t, e.content) :: ws1, ws2, ?_, ?_⟩
        · simp [installWrites, hcl, hsplit]
        · rw [hfiles]
          have hfw :
              (writeVault (if !(dirOf t).isEmpty && !existsPath v (dirOf t)
                then addDir v (dirOf t) else v) t e.content).files =
                writeFile v.files t e.content := by
            unfold writeVault
            rw [mkdirIf_files]
          rw [hfw]
          rfl

theorem VaultFS_ext {a b : VaultFS} (h1 : a.files = b.files) (h2 : a.dirs = b.dirs) : a = b := by
  cases a
  cases b
  cases h1
  cases h2
  rfl

theorem pushAll_cons (acc : List Str) (n : Str) (names : List Str) :
    pushAll acc (n :: names) =
      pushAll (if isMonolithosName n = true ∧ ¬ n ∈ acc then acc ++ [n] else acc) names := rfl

theorem mem_pushAll_of_mem {acc : List Str} {x : Str} (names : List Str) (h : x ∈ acc) :
    x ∈ pushAll acc names := by
  induction names generalizing acc with
  | nil => exact h
  | cons n rest ih =>
    rw [pushAll_cons]
    split
    · exact ih (List.mem_append.mpr (Or.inl h))
    · exact ih h

theorem mem_pushAll_self {acc : List Str} {n : Str} {names : List Str}
    (hm : n ∈ names) (hmono : isMonolithosName n = true) : n ∈ pushAll acc names := by
  induction names generalizing acc with
  | nil => cases hm
  | cons m rest ih =>
    rw [pushAll_cons]
    rcases List.mem_cons.mp hm with h1 | h1
    · subst h1
      by_cases hin : n ∈ acc
      · rw [if_neg (fun hc => hc.2 hin)]
        exact mem_pushAll_of_mem rest hin
      · rw [if_pos ⟨hmono, hin⟩]
        exact mem_pushAll_of_mem rest (List.mem_append.mpr (Or.inr (List.mem_cons_self _ _)))
    · split
      · exact ih h1
      · exact ih h1

theorem pushAll_eq_self {acc : List Str} {names : List Str}
    (h : ∀ n ∈ names, isMonolithosName n = true → n ∈ acc) : pushAll acc names = acc := by
  induction names with
  | nil => rfl
  | cons n rest ih =>
    rw [pushAll_cons]
    by_cases hmono : isMonolithosName n = true
    · rw [if_neg (fun hc => hc.2 (h n (List.mem_cons_self _ _) hmono))]
      exact ih (fun m hm hmo => h m (List.mem_cons_of_mem n hm) hmo)
    · rw [if_neg (fun hc => hmono hc.1)]
      exact ih (fun m hm hmo => h m (List.mem_cons_of_mem n hm) hmo)

theorem pushAll_pushAll (acc : List Str) (names : List Str) :
    pushAll (pushAll acc names) names = pushAll acc names :=
  pushAll_eq_self (fun _ hm hmono => mem_pushAll_self hm hmono)

theorem pushAll_append_new (names : List Str) :
    ∀ acc, ∃ new, pushAll acc names = acc ++ new := by
  induction names with
  | nil => intro acc; exact ⟨[], by simp [pushAll]⟩
  | cons n rest ih =>
    intro acc
    rw [pushAll_cons]
    split
    · obtain ⟨new, hnew⟩ := ih (acc ++ [n])
      exact ⟨[n] ++ new, by rw [hnew, List.append_assoc]⟩
    · exact ih acc

theorem nodup_snoc {l : List Str} {x : Str} (h : l.Nodup) (hx : x ∉ l) :
    (l ++ [x]).Nodup := by
  induction l with
  | nil => simp
  | cons a rest ih =>
    rw [List.cons_append, List.nodup_cons]
    refine ⟨?_, ih (List.nodup_cons.mp h).2 (fun hc => hx (List.mem_cons_of_mem a hc))⟩
    intro hc
    rcases List.mem_append.mp hc with h1 | h1
    · exact absurd h1 (List.nodup_cons.mp h).1
    · rcases List.mem_cons.mp h1 with h2 | h2
      · exact hx (h2 ▸ List.mem_cons_self a rest)
      · cases h2

theorem pushAll_nodup {acc : List Str} (names : List Str) (h : acc.Nodup) :
    (pushAll acc names).Nodup := by
  induction names generalizing acc with
  | nil => exact h
  | cons n rest ih =>
    rw [pushAll_cons]
    by_cases hc : isMonolithosName n = true ∧ ¬ n ∈ acc
    · rw [if_pos hc]
      exact ih (nodup_snoc h hc.2)
    · rw [if_neg hc]
      exact ih h

theorem listFiles_append (a b : FileList) (d : Str) :
    listFiles (a ++ b) d = listFiles a d ++ listFiles b d := by
  induction a with
  | nil => rfl
  | cons e rest ih =>
    by_cases he : isDirectChild d e.1 = true
    · simp [listFiles, he, ih]
    · simp [listFiles, he, ih]

theorem cssList_append (a b : FileList) (d : Str) :
    cssList (a ++ b) d = cssList a d ++ cssList b d := by
  unfold cssList
  rw [listFiles_append, List.filter_append]

theorem cssList_eraseFile {fs : FileList} {p : Str} (d : Str)
    (h : endsWith p cssExt = false) : cssList (eraseFile fs p) d = cssList fs d := by
  induction fs with
  | nil => rfl
  | cons e rest ih =>
    unfold cssList at ih ⊢
    by_cases hep : e.1 = p
    · rw [eraseFile, if_pos hep, ih]
      rw [show listFiles (e :: rest) d =
          if isDirectChild d e.1 = true then e.1 :: listFiles rest d
          else listFiles rest d from rfl]
      by_cases hch : isDirectChild d e.1 = true
      · rw [if_pos hch, List.filter_cons, hep, h]
        simp
      · rw [if_neg hch]
    · rw [eraseFile, if_neg hep]
      rw [show listFiles (e :: eraseFile rest p) d =
          if isDirectChild d e.1 = true then e.1 :: listFiles (eraseFile rest p) d
          else listFiles (eraseFile rest p) d from rfl]
      rw [show listFiles (e :: rest) d =
          if isDirectChild d e.1 = true then e.1 :: listFiles rest d
          else listFiles rest d from rfl]
      by_cases hch : isDirectChild d e.1 = true
      · rw [if_pos hch, if_pos hch, List.filter_cons, List.filter_cons, ih]
      · rw [if_neg hch, if_neg hch, ih]

theorem cssList_single_not_css {p : Str} {c : FileContent} (d : Str)
    (h : endsWith p cssExt = false) : cssList [(p, c)] d = [] := by
  unfold cssList listFiles
  by_cases hch : isDirectChild d p = true
  · rw [if_pos hch]
    rw [show listFiles [] d = [] from rfl]
    rw [List.filter_cons_of_neg (by rw [h]; exact Bool.false_ne_true)]
    rfl
  · rw [if_neg hch]
    rfl

theorem enableSnippets_id_of_none {cfg : Str} {v : VaultFS}
    (hr : readAppearanceDoc cfg v = none) : enableSnippets cfg v = v := by
  unfold enableSnippets
  rw [hr]

theorem enableSnippets_id_of_nodir {cfg : Str} {v : VaultFS}
    (hd : existsPath v (snippetsDir cfg) = false) : enableSnippets cfg v = v := by
  unfold enableSnippets
  cases readAppearanceDoc cfg v with
  | none => rfl
  | some a =>
    simp only [hd]
    rfl

theorem enableSnippets_write {cfg : Str} {v : VaultFS} {a : Appearance}
    (hr : readAppearanceDoc cfg v = some a)
    (hd : existsPath v (snippetsDir cfg) = true) :
    enableSnippets cfg v = writeVault v (appearancePath cfg)
      (.json ⟨some (pushAll (a.enabledCssSnippets.getD []) (snippetNames cfg v.files)),
        a.other⟩) := by
  unfold enableSnippets
  rw [hr]
  simp only [hd, if_true]

theorem lookupFile_eq_none {fs : FileList} {p : Str} (h : ∀ e ∈ fs, e.1 ≠ p) :
    lookupFile fs p = none := by
  induction fs with
  | nil => rfl
  | cons e rest ih =>
    rw [lookupFile, if_neg (h e (List.mem_cons_self _ _))]
    exact ih (fun f hf => h f (List.mem_cons_of_mem e hf))

theorem lookupFile_applyWrites {fs : FileList} {ws : List (Str × FileContent)} {p : Str}
    (h : p ∉ writeKeys ws) : lookupFile (applyWrites fs ws) p = lookupFile fs p := by
  rw [applyWrites_normal, lookupFile_append, lookupFile_dropKeys, if_neg h]
  cases hl : lookupFile fs p with
  | some c => rfl
  | none => exact lookupFile_eq_none (fun e he hep => h (hep ▸ mem_applyWrites_nil he))

theorem lookupFile_writeFile_self (fs : FileList) (p : Str) (c : FileContent) :
    lookupFile (writeFile fs p c) p = some c := by
  unfold writeFile
  rw [lookupFile_append, lookupFile_eraseFile, if_pos rfl]
  simp [lookupFile]

theorem appearance_not_in_writeKeys (cfg : Str) (l : List ZipEntry) :
    appearancePath cfg ∉ writeKeys (installWrites cfg l) := by
  intro h
  obtain ⟨w, hw, hkey⟩ := List.mem_map.mp h
  obtain ⟨p, hp⟩ := installWrites_mem hw
  exact target_ne_appearance hp hkey

theorem writeLoop_rewrite_shape (cfg : Str) (F : List ZipEntry) (v v1 : VaultFS)
    (J : FileContent)
    (hA : v1.files = applyWrites v.files (installWrites cfg F)) :
    (writeLoop cfg [] (writeVault v1 (appearancePath cfg) J) F).1 =
      ⟨dropKeys (appearancePath cfg :: writeKeys (installWrites cfg F)) v.files
         ++ ([(appearancePath cfg, J)] ++ applyWrites [] (installWrites cfg F)),
       v1.dirs⟩ := by
  have happ : appearancePath cfg ∉ writeKeys (installWrites cfg F) :=
    appearance_not_in_writeKeys cfg F
  have hLne : ∀ e ∈ applyWrites [] (installWrites cfg F), e.1 ≠ appearancePath cfg :=
    fun e he hc => happ (hc ▸ mem_applyWrites_nil he)
  have hkeys2 : ∀ t c, (t, c) ∈ installWrites cfg F →
      ∃ c2, (t, c2) ∈ (writeVault v1 (appearancePath cfg) J).files := by
    intro t c htc
    have ht : ∃ c2, (t, c2) ∈ v1.files := by
      rw [hA]
      exact hasKey_applyWrites (List.mem_map_of_mem Prod.fst htc)
    obtain ⟨c2, hc2⟩ := ht
    exact hasKey_writeFile hc2
  refine VaultFS_ext ?_ (writeLoop_dirs cfg F _ hkeys2)
  rw [writeLoop_files cfg [] F _ (writeLoop_none cfg F _)]
  have hv1f : (writeVault v1 (appearancePath cfg) J).files =
      (dropKeys (appearancePath cfg :: writeKeys (installWrites cfg F)) v.files
        ++ applyWrites [] (installWrites cfg F)) ++ [(appearancePath cfg, J)] := by
    show writeFile v1.files (appearancePath cfg) J = _
    unfold writeFile
    rw [hA, applyWrites_normal, eraseFile_append, eraseFile_dropKeys,
      eraseFile_eq_self hLne]
  have hD : dropKeys (writeKeys (installWrites cfg F))
      (dropKeys (appearancePath cfg :: writeKeys (installWrites cfg F)) v.files) =
      dropKeys (appearancePath cfg :: writeKeys (installWrites cfg F)) v.files :=
    dropKeys_eq_self (fun e he hc => (mem_dropKeys.mp he).2 (List.mem_cons_of_mem _ hc))
  have hL0 : dropKeys (writeKeys (installWrites cfg F))
      (applyWrites [] (installWrites cfg F)) = [] :=
    dropKeys_eq_nil (fun e he => mem_applyWrites_nil he)
  have hsingle : dropKeys (writeKeys (installWrites cfg F)) [(appearancePath cfg, J)] =
      [(appearancePath cfg, J)] :=
    dropKeys_eq_self (fun e he hc => by
      rcases List.mem_cons.mp he with h1 | h1
      · rw [h1] at hc
        exact happ hc
      · cases h1)
  rw [hv1f, applyWrites_normal, dropKeys_append, dropKeys_append, hD, hL0, hsingle]
  simp

theorem lookupFile_shape (Dl Ll : FileList) (p : Str) (c : FileContent)
    (hD : ∀ e ∈ Dl, e.1 ≠ p) :
    lookupFile (Dl ++ ([(p, c)] ++ Ll)) p = some c := by
  induction Dl with
  | nil => simp [lookupFile]
  | cons e rest ih =>
    rw [List.cons_append, lookupFile, if_neg (hD e (List.mem_cons_self _ _))]
    exact ih (fun f hf => hD f (List.mem_cons_of_mem e hf))

theorem writeLoop_rewrite_files (cfg : Str) (F : List ZipEntry) (v v1 : VaultFS)
    (J : FileContent)
    (hA : v1.files = applyWrites v.files (installWrites cfg F)) :
    (writeLoop cfg [] (writeVault v1 (appearancePath cfg) J) F).1.files =
      dropKeys (appearancePath cfg :: writeKeys (installWrites cfg F)) v.files
        ++ ([(appearancePath cfg, J)] ++ applyWrites [] (installWrites cfg F)) := by
  rw [writeLoop_rewrite_shape cfg F v v1 J hA]

theorem writeLoop_rewrite_dirs (cfg : Str) (F : List ZipEntry) (v v1 : VaultFS)
    (J : FileContent)
    (hA : v1.files = applyWrites v.files (installWrites cfg F)) :
    (writeLoop cfg [] (writeVault v1 (appearancePath cfg) J) F).1.dirs = v1.dirs := by
  rw [writeLoop_rewrite_shape cfg F v v1 J hA]

theorem cssList_applyWrites (vf : FileList) (ws : List (Str × FileContent)) (d : Str) :
    cssList (applyWrites vf ws) d =
      cssList (dropKeys (writeKeys ws) vf) d ++ cssList (applyWrites [] ws) d := by
  conv =>
    lhs
    rw [applyWrites_normal]
  rw [cssList_append]

theorem eraseFile_applyWrites_appearance (cfg : Str) (F : List ZipEntry) (vf : FileList) :
    eraseFile (applyWrites vf (installWrites cfg F)) (appearancePath cfg) =
      dropKeys (appearancePath cfg :: writeKeys (installWrites cfg F)) vf
        ++ applyWrites [] (installWrites cfg F) := by
  have happ := appearance_not_in_writeKeys cfg F
  have hLne : ∀ e ∈ applyWrites [] (installWrites cfg F), e.1 ≠ appearancePath cfg :=
    fun e he hc => happ (hc ▸ mem_applyWrites_nil he)
  conv =>
    lhs
    rw [applyWrites_normal]
  rw [eraseFile_append, eraseFile_dropKeys, eraseFile_eq_self hLne]

theorem snippetNames_eq_of_cssList {cfg : Str} {fs fs2 : FileList}
    (h : cssList fs (snippetsDir cfg) = cssList fs2 (snippetsDir cfg)) :
    snippetNames cfg fs = snippetNames cfg fs2 := by
  unfold snippetNames
  rw [h]

theorem enableSnippets_rerun (cfg : Str) (F : List ZipEntry) (v v1 : VaultFS)
    (E0 : List Str) (oth : List (Str × Str))
    (hA : v1.files = applyWrites v.files (installWrites cfg F))
    (hdir : existsPath v1 (snippetsDir cfg) = true) :
    enableSnippets cfg (writeLoop cfg [] (writeVault v1 (appearancePath cfg)
        (.json ⟨some (pushAll E0 (snippetNames cfg v1.files)), oth⟩)) F).1 =
      writeVault v1 (appearancePath cfg)
        (.json ⟨some (pushAll E0 (snippetNames cfg v1.files)), oth⟩) := by
  have happ := appearance_not_in_writeKeys cfg F
  have hLne : ∀ e ∈ applyWrites [] (installWrites cfg F), e.1 ≠ appearancePath cfg :=
    fun e he hc => happ (hc ▸ mem_applyWrites_nil he)
  have hDne : ∀ e ∈ dropKeys (appearancePath cfg :: writeKeys (installWrites cfg F)) v.files,
      e.1 ≠ appearancePath cfg :=
    fun e he hc => (mem_dropKeys.mp he).2 (by rw [hc]; exact List.mem_cons_self _ _)
  have hW2f := writeLoop_rewrite_files cfg F v v1
    (.json ⟨some (pushAll E0 (snippetNames cfg v1.files)), oth⟩) hA
  have hW2d := writeLoop_rewrite_dirs cfg F v v1
    (.json ⟨some (pushAll E0 (snippetNames cfg v1.files)), oth⟩) hA
  have hd2 : existsPath (writeLoop cfg [] (writeVault v1 (appearancePath cfg)
      (.json ⟨some (pushAll E0 (snippetNames cfg v1.files)), oth⟩)) F).1
      (snippetsDir cfg) = true := by
    unfold existsPath at hdir ⊢
    rw [Bool.or_eq_true] at hdir ⊢
    rw [hW2f, hW2d]
    rcases hdir with hfile | hdirs
    · left
      rw [List.any_eq_true] at hfile ⊢
      obtain ⟨e, he, hu⟩ := hfile
      refine ⟨e, ?_, hu⟩
      rw [hA, applyWrites_normal] at he
      rcases List.mem_append.mp he with h1 | h1
      · refine List.mem_append.mpr (Or.inl ?_)
        obtain ⟨h2, h3⟩ := mem_dropKeys.mp h1
        refine mem_dropKeys.mpr ⟨h2, ?_⟩
        intro hm
        rcases List.mem_cons.mp hm with h4 | h4
        · rw [h4, underPath_snippets_appearance] at hu
          exact Bool.false_ne_true hu
        · exact h3 h4
      · exact List.mem_append.mpr (Or.inr (List.mem_append.mpr (Or.inr h1)))
    · right
      exact hdirs
  have hlook : lookupFile (writeLoop cfg [] (writeVault v1 (appearancePath cfg)
      (.json ⟨some (pushAll E0 (snippetNames cfg v1.files)), oth⟩)) F).1.files
      (appearancePath cfg) =
      some (FileContent.json ⟨some (pushAll E0 (snippetNames cfg v1.files)), oth⟩) := by
    rw [hW2f]
    exact lookupFile_shape _ _ _ _ hDne
  have hread : readAppearanceDoc cfg (writeLoop cfg [] (writeVault v1 (appearancePath cfg)
      (.json ⟨some (pushAll E0 (snippetNames cfg v1.files)), oth⟩)) F).1 =
      some ⟨some (pushAll E0 (snippetNames cfg v1.files)), oth⟩ := by
    unfold readAppearanceDoc
    rw [if_pos (existsPath_of_hasKey (lookupFile_mem hlook)), hlook]
    rfl
  have hnames : snippetNames cfg (writeLoop cfg [] (writeVault v1 (appearancePath cfg)
      (.json ⟨some (pushAll E0 (snippetNames cfg v1.files)), oth⟩)) F).1.files =
      snippetNames cfg v1.files := by
    refine snippetNames_eq_of_cssList ?_
    rw [hW2f, cssList_append, cssList_append,
      cssList_single_not_css (snippetsDir cfg) (appearance_not_css cfg)]
    rw [hA]
    conv =>
      rhs
      rw [cssList_applyWrites]
    rw [show dropKeys (appearancePath cfg :: writeKeys (installWrites cfg F)) v.files =
        eraseFile (dropKeys (writeKeys (installWrites cfg F)) v.files) (appearancePath cfg)
      from (eraseFile_dropKeys _ _ _).symm]
    rw [cssList_eraseFile (snippetsDir cfg) (appearance_not_css cfg)]
    simp
  rw [enableSnippets_write hread hd2, hnames]
  show writeVault _ (appearancePath cfg)
      (.json ⟨some (pushAll (pushAll E0 (snippetNames cfg v1.files))
        (snippetNames cfg v1.files)), oth⟩) =
    writeVault v1 (appearancePath cfg)
      (.json ⟨some (pushAll E0 (snippetNames cfg v1.files)), oth⟩)
  rw [pushAll_pushAll]
  refine VaultFS_ext ?_ ?_
  · show writeFile _ (appearancePath cfg) _ = writeFile v1.files (appearancePath cfg) _
    unfold writeFile
    rw [hW2f, eraseFile_append, eraseFile_append, eraseFile_eq_self hDne,
      eraseFile_eq_self hLne]
    rw [show eraseFile [((appearancePath cfg : Str),
        (FileContent.json ⟨some (pushAll E0 (snippetNames cfg v1.files)), oth⟩))]
        (appearancePath cfg) = [] from by simp [eraseFile]]
    rw [hA, eraseFile_applyWrites_appearance]
    simp
  · show (writeLoop cfg [] (writeVault v1 (appearancePath cfg)
        (.json ⟨some (pushAll E0 (snippetNames cfg v1.files)), oth⟩)) F).1.dirs = v1.dirs
    exact hW2d

theorem installVault_idem (cfg : Str) (F : List ZipEntry) (v : VaultFS) :
    enableSnippets cfg (writeLoop cfg [] (enableSnippets cfg (writeLoop cfg [] v F).1) F).1 =
      enableSnippets cfg (writeLoop cfg [] v F).1 := by
  have hA : (writeLoop cfg [] v F).1.files = applyWrites v.files (installWrites cfg F) :=
    writeLoop_files cfg [] F v (writeLoop_none cfg F v)
  generalize hv1 : (writeLoop cfg [] v F).1 = v1 at hA ⊢
  have hkeys : ∀ t c, (t, c) ∈ installWrites cfg F → ∃ c2, (t, c2) ∈ v1.files := by
    intro t c htc
    rw [hA]
    exact hasKey_applyWrites (List.mem_map_of_mem Prod.fst htc)
  have hstable : (writeLoop cfg [] v1 F).1 = v1 := by
    refine VaultFS_ext ?_ (writeLoop_dirs cfg F v1 hkeys)
    rw [writeLoop_files cfg [] F v1 (writeLoop_none cfg F v1), hA, applyWrites_idem]
  cases hr : readAppearanceDoc cfg v1 with
  | none =>
    have he := enableSnippets_id_of_none hr
    rw [he, hstable]
    exact he
  | some a =>
    by_cases hdir : existsPath v1 (snippetsDir cfg) = true
    · rw [enableSnippets_write hr hdir]
      exact enableSnippets_rerun cfg F v v1 (a.enabledCssSnippets.getD []) a.other hA hdir
    · have hdf : existsPath v1 (snippetsDir cfg) = false := by
        cases h2 : existsPath v1 (snippetsDir cfg)
        · rfl
        · exact absurd h2 hdir
      have he := enableSnippets_id_of_nodir hdf
      rw [he, hstable]
      exact he

theorem installMonolithos_downloadFailure (cfg : Str) (env : InstallEnv) (st : PluginState)
    (m : String) (h : env.fetch = .downloadFailure m) :
    installMonolithos cfg env st = (.error m, st, [progressDownload]) := by
  unfold installMonolithos
  rw [h]

theorem installMonolithos_decodeFailure (cfg : Str) (env : InstallEnv) (st : PluginState)
    (m : String) (h : env.fetch = .decodeFailure m) :
    installMonolithos cfg env st = (.error m, st, [progressDownload, progressExtract]) := by
  unfold installMonolithos
  rw [h]

theorem installMonolithos_fetched_ok (cfg : Str) (env : InstallEnv) (st : PluginState)
    (es : List ZipEntry) (hf : env.fetch = .fetched es)
    (hw : (writeLoop cfg env.writeFails st.vault (installFilesOf es)).2 = none) :
    installMonolithos cfg env st =
      (.ok true,
       { vault := enableSnippets cfg (writeLoop cfg env.writeFails st.vault (installFilesOf es)).1,
         settings := { st.settings with installed := true, installedVersion := "1.0.0" } },
       [progressDownload, progressExtract, progressInstall, progressConfigure,
        progressComplete]) := by
  unfold installMonolithos
  rw [hf]
  cases hwl : writeLoop cfg env.writeFails st.vault (installFilesOf es) with
  | mk v r =>
    rw [hwl] at hw
    simp only at hw
    subst hw
    simp [hwl]

theorem installMonolithos_fetched_error (cfg : Str) (env : InstallEnv) (st : PluginState)
    (es : List ZipEntry) (m : String) (hf : env.fetch = .fetched es)
    (hw : (writeLoop cfg env.writeFails st.vault (installFilesOf es)).2 = some m) :
    installMonolithos cfg env st =
      (.error m,
       { st with vault := (writeLoop cfg env.writeFails st.vault (installFilesOf es)).1 },
       [progressDownload, progressExtract, progressInstall]) := by
  unfold installMonolithos
  rw [hf]
  cases hwl : writeLoop cfg env.writeFails st.vault (installFilesOf es) with
  | mk v r =>
    rw [hwl] at hw
    simp only at hw
    subst hw
    simp [hwl]

theorem writeVault_files (v : VaultFS) (p : Str) (c : FileContent) :
    (writeVault v p c).files = writeFile v.files p c := rfl

theorem hasKey_enableSnippets {cfg : Str} {v : VaultFS} {q : Str} {c : FileContent}
    (h : (q, c) ∈ v.files) : ∃ c2, (q, c2) ∈ (enableSnippets cfg v).files := by
  cases hr : readAppearanceDoc cfg v with
  | none =>
    rw [enableSnippets_id_of_none hr]
    exact ⟨c, h⟩
  | some a =>
    by_cases hd : existsPath v (snippetsDir cfg) = true
    · rw [enableSnippets_write hr hd, writeVault_files]
      exact hasKey_writeFile h
    · have hdf : existsPath v (snippetsDir cfg) = false := by
        cases h2 : existsPath v (snippetsDir cfg)
        · rfl
        · exact absurd h2 hd
      rw [enableSnippets_id_of_nodir hdf]
      exact ⟨c, h⟩

theorem enabledNodupB_congr {cfg : Str} {fs fs2 : FileList}
    (h : lookupFile fs (appearancePath cfg) = lookupFile fs2 (appearancePath cfg)) :
    enabledNodupB cfg fs = enabledNodupB cfg fs2 := by
  unfold enabledNodupB
  rw [h]

theorem enabledNodupB_writeFile {cfg : Str} {fs : FileList} {E : List Str}
    {oth : List (Str × Str)} (h : E.Nodup) :
    enabledNodupB cfg (writeFile fs (appearancePath cfg) (.json ⟨some E, oth⟩)) = true := by
  unfold enabledNodupB
  rw [lookupFile_writeFile_self]
  exact decide_eq_true h

theorem enabledNodupB_enableSnippets {cfg : Str} {v : VaultFS}
    (h : enabledNodupB cfg v.files = true) :
    enabledNodupB cfg (enableSnippets cfg v).files = true := by
  cases hr : readAppearanceDoc cfg v with
  | none =>
    rw [enableSnippets_id_of_none hr]
    exact h
  | some a =>
    by_cases hd : existsPath v (snippetsDir cfg) = true
    · have hE0 : (a.enabledCssSnippets.getD []).Nodup := by
        unfold readAppearanceDoc at hr
        by_cases hex : existsPath v (appearancePath cfg) = true
        · rw [if_pos hex] at hr
          cases hl : lookupFile v.files (appearancePath cfg) with
          | none =>
            rw [hl] at hr
            exact Option.noConfusion hr
          | some c =>
            rw [hl] at hr
            cases c with
            | bin b => exact Option.noConfusion hr
            | malformed s => exact Option.noConfusion hr
            | json a2 =>
              have hr2 : some a2 = some a := hr
              injection hr2 with h2
              subst h2
              unfold enabledNodupB at h
              rw [hl] at h
              exact of_decide_eq_true h
        · rw [if_neg hex] at hr
          have hr2 : some (⟨none, []⟩ : Appearance) = some a := hr
          injection hr2 with h2
          rw [← h2]
          simp
      rw [enableSnippets_write hr hd, writeVault_files]
      exact enabledNodupB_writeFile (pushAll_nodup _ hE0)
    · have hdf : existsPath v (snippetsDir cfg) = false := by
        cases h2 : existsPath v (snippetsDir cfg)
        · rfl
        · exact absurd h2 hd
      rw [enableSnippets_id_of_nodir hdf]
      exact h

/-- Claim C1: `verifyLicense` always returns a result object and never throws
(it is a total function of the request outcome; the source `catch` converts
every thrown error into a result): on a well-formed response whose validity
field is truthy it returns valid=true with the response tier; on validity
false it returns valid=false with the server-supplied message, or the generic
"Invalid license key" message when none is supplied; on any transport or
parse failure it returns valid=false with the "Could not connect to server"
error. -/
theorem c1_verifyLicense_result (o : VerifyOutcome) :
    (∃ res : VerifyResult, verifyLicense o = res) ∧
    (∀ r, o = .response r → r.valid = true → verifyLicense o = ⟨true, r.tier, none⟩) ∧
    (∀ r m, o = .response r → r.valid = false → r.message = some m → m ≠ "" →
      verifyLicense o = ⟨false, none, some m⟩) ∧
    (∀ r, o = .response r → r.valid = false → r.message = none →
      verifyLicense o = ⟨false, none, some "Invalid license key"⟩) ∧
    (o = .failure → verifyLicense o = ⟨false, none, some "Could not connect to server"⟩) := by
  refine ⟨⟨verifyLicense o, rfl⟩, ?_, ?_, ?_, ?_⟩
  · rintro r rfl hv
    simp [verifyLicense, hv]
  · rintro r m rfl hv hm hne
    simp [verifyLicense, hv, orDefault, hm, hne]
  · rintro r rfl hv hm
    simp [verifyLicense, hv, orDefault, hm]
  · rintro rfl
    rfl

theorem c1_verifyLicense_result_witness :
    verifyLicense (.response ⟨true, some "pro", none⟩) = ⟨true, some "pro", none⟩ ∧
    verifyLicense (.response ⟨false, none, some "expired"⟩) = ⟨false, none, some "expired"⟩ ∧
    verifyLicense (.response ⟨false, none, none⟩) = ⟨false, none, some "Invalid license key"⟩ ∧
    verifyLicense .failure = ⟨false, none, some "Could not connect to server"⟩ :=
  ⟨(c1_verifyLicense_result _).2.1 _ rfl rfl,
   (c1_verifyLicense_result _).2.2.1 _ "expired" rfl rfl rfl (by decide),
   (c1_verifyLicense_result _).2.2.2.1 _ rfl rfl rfl,
   (c1_verifyLicense_result _).2.2.2.2 rfl⟩

/-- Claim C2: the install step writes exactly the non-directory entries whose
path contains the substring "plugins/monolithos/" (written under the config
dir keeping the path suffix from the first occurrence of the substring) or
the substring "snippets/" (likewise); every other entry is discarded without
being written and without raising an error; and for the archive with entries
plugins/monolithos/main.js, snippets/theme.css and readme.txt exactly two
files are written. -/
theorem c2_install_writes (cfg : Str) (v : VaultFS) (entries : List ZipEntry) :
    (writeLoop cfg [] v (installFilesOf entries)).2 = none ∧
    (writeLoop cfg [] v (installFilesOf entries)).1.files =
      applyWrites v.files (installWrites cfg (installFilesOf entries)) ∧
    (∀ p : Str, containsSub pluginsToken p = true →
      classifyEntry cfg p = some (cfg ++ '/' :: suffixFrom pluginsToken p)) ∧
    (∀ p : Str, containsSub pluginsToken p = false → containsSub snippetsToken p = true →
      classifyEntry cfg p = some (cfg ++ '/' :: suffixFrom snippetsToken p)) ∧
    (∀ p : Str, containsSub pluginsToken p = false → containsSub snippetsToken p = false →
      classifyEntry cfg p = none) ∧
    (∀ n p : Str, containsSub n p = true →
      startsWith (suffixFrom n p) n = true ∧ (∃ pre, p = pre ++ suffixFrom n p) ∧
      (∀ pre s, p = pre ++ s → startsWith s n = true →
        s.length ≤ (suffixFrom n p).length)) ∧
    ((writeLoop ".obsidian".data [] ⟨[], []⟩ (installFilesOf
        [⟨"plugins/monolithos/main.js".data, false, .bin [0]⟩,
         ⟨"snippets/theme.css".data, false, .bin [1]⟩,
         ⟨"readme.txt".data, false, .bin [2]⟩])).1.files.map Prod.fst =
      [".obsidian/plugins/monolithos/main.js".data, ".obsidian/snippets/theme.css".data]) := by
  refine ⟨writeLoop_none cfg (installFilesOf entries) v,
    writeLoop_files cfg [] (installFilesOf entries) v (writeLoop_none cfg _ v),
    ?_, ?_, ?_, ?_, by decide⟩
  · intro p h
    unfold classifyEntry
    rw [if_pos h]
  · intro p h1 h2
    unfold classifyEntry
    rw [if_neg (by rw [h1]; exact Bool.false_ne_true), if_pos h2]
  · intro p h1 h2
    unfold classifyEntry
    rw [if_neg (by rw [h1]; exact Bool.false_ne_true),
      if_neg (by rw [h2]; exact Bool.false_ne_true)]
  · intro n p h
    exact ⟨suffixFrom_starts n p h, suffixFrom_is_suffix n p,
      fun pre s hps hsw => suffixFrom_longest n p pre s hps hsw⟩

theorem c2_install_writes_witness :
    classifyEntry ".obsidian".data "pack/plugins/monolithos/styles.css".data =
      some (".obsidian".data ++ '/' ::
        suffixFrom pluginsToken "pack/plugins/monolithos/styles.css".data) ∧
    classifyEntry ".obsidian".data "pack/snippets/a.css".data =
      some (".obsidian".data ++ '/' :: suffixFrom snippetsToken "pack/snippets/a.css".data) ∧
    classifyEntry ".obsidian".data "readme.txt".data = none :=
  ⟨(c2_install_writes ".obsidian".data ⟨[], []⟩ []).2.2.1 _ (by decide),
   (c2_install_writes ".obsidian".data ⟨[], []⟩ []).2.2.2.1 _ (by decide) (by decide),
   (c2_install_writes ".obsidian".data ⟨[], []⟩ []).2.2.2.2.1 _ (by decide) (by decide)⟩

/-- Claim C9: an archive entry whose path contains both "plugins/monolithos/"
and "snippets/" is classified as a plugin file (written under the plugin
target), because the plugin-path check runs before the snippets check. -/
theorem c9_plugin_precedence (cfg p : Str)
    (h1 : containsSub pluginsToken p = true) (h2 : containsSub snippetsToken p = true) :
    classifyEntry cfg p = some (cfg ++ '/' :: suffixFrom pluginsToken p) := by
  unfold classifyEntry
  rw [if_pos h1]

theorem c9_plugin_precedence_witness :
    containsSub pluginsToken "plugins/monolithos/snippets/x.css".data = true ∧
    containsSub snippetsToken "plugins/monolithos/snippets/x.css".data = true ∧
    classifyEntry ".obsidian".data "plugins/monolithos/snippets/x.css".data =
      some (".obsidian".data ++ '/' ::
        suffixFrom pluginsToken "plugins/monolithos/snippets/x.css".data) :=
  ⟨by decide, by decide, c9_plugin_precedence _ _ (by decide) (by decide)⟩

/-- Claim C3: if the download step — or any of steps 1-4 (download, decode,
classify, write) — throws, `installMonolithos` propagates the error to its
caller and persisted settings (in particular `installed`) keep their prior
value; no cleanup of already-written files is performed: on a write failure
the vault holds exactly the writes applied before the failure, a prefix of
the planned write sequence. -/
theorem c3_failure_propagation (cfg : Str) (env : InstallEnv) (st : PluginState) :
    (∀ m, env.fetch = .downloadFailure m →
      (installMonolithos cfg env st).1 = .error m ∧
      (installMonolithos cfg env st).2.1 = st) ∧
    (∀ m, env.fetch = .decodeFailure m →
      (installMonolithos cfg env st).1 = .error m ∧
      (installMonolithos cfg env st).2.1 = st) ∧
    (∀ es m, env.fetch = .fetched es →
      (writeLoop cfg env.writeFails st.vault (installFilesOf es)).2 = some m →
      (installMonolithos cfg env st).1 = .error m ∧
      (installMonolithos cfg env st).2.1.settings = st.settings ∧
      ∃ ws1 ws2, installWrites cfg (installFilesOf es) = ws1 ++ ws2 ∧
        (installMonolithos cfg env st).2.1.vault.files = applyWrites st.vault.files ws1) := by
  refine ⟨?_, ?_, ?_⟩
  · intro m hf
    rw [installMonolithos_downloadFailure cfg env st m hf]
    exact ⟨rfl, rfl⟩
  · intro m hf
    rw [installMonolithos_decodeFailure cfg env st m hf]
    exact ⟨rfl, rfl⟩
  · intro es m hf hw
    rw [installMonolithos_fetched_error cfg env st es m hf hw]
    obtain ⟨ws1, ws2, hsplit, hfiles⟩ :=
      writeLoop_error cfg env.writeFails (installFilesOf es) st.vault m hw
    exact ⟨rfl, rfl, ws1, ws2, hsplit, hfiles⟩

theorem c3_failure_propagation_witness :
    (installMonolithos ".obsidian".data ⟨.downloadFailure "connection refused", []⟩
      ⟨⟨[], []⟩, ⟨"k", false, ""⟩⟩).1 = .error "connection refused" ∧
    (installMonolithos ".obsidian".data ⟨.downloadFailure "connection refused", []⟩
      ⟨⟨[], []⟩, ⟨"k", false, ""⟩⟩).2.1 = ⟨⟨[], []⟩, ⟨"k", false, ""⟩⟩ :=
  (c3_failure_propagation ".obsidian".data ⟨.downloadFailure "connection refused", []⟩
    ⟨⟨[], []⟩, ⟨"k", false, ""⟩⟩).1 "connection refused" rfl

/-- Claim C5: when the appearance document at the fixed path is malformed
JSON (or, more generally, the appearance-edit sub-step fails), the edit fails
silently — the error is caught, never rethrown, and the vault is left exactly
as the write phase produced it — and the overall install still reports
success, returning true with settings.installed set to true. -/
theorem c5_malformed_appearance_silent (cfg : Str) (env : InstallEnv)
    (es : List ZipEntry) (st : PluginState) (s : String)
    (hf : env.fetch = .fetched es)
    (hm : lookupFile st.vault.files (appearancePath cfg) = some (.malformed s))
    (hw : (writeLoop cfg env.writeFails st.vault (installFilesOf es)).2 = none) :
    (installMonolithos cfg env st).1 = .ok true ∧
    (installMonolithos cfg env st).2.1.settings.installed = true ∧
    (installMonolithos cfg env st).2.1.vault =
      (writeLoop cfg env.writeFails st.vault (installFilesOf es)).1 ∧
    lookupFile (installMonolithos cfg env st).2.1.vault.files (appearancePath cfg) =
      some (.malformed s) := by
  have happ := appearance_not_in_writeKeys cfg (installFilesOf es)
  have hfiles := writeLoop_files cfg env.writeFails (installFilesOf es) st.vault hw
  have hlook2 : lookupFile (writeLoop cfg env.writeFails st.vault (installFilesOf es)).1.files
      (appearancePath cfg) = some (.malformed s) := by
    rw [hfiles, lookupFile_applyWrites happ, hm]
  have hread : readAppearanceDoc cfg
      (writeLoop cfg env.writeFails st.vault (installFilesOf es)).1 = none := by
    unfold readAppearanceDoc
    rw [if_pos (existsPath_of_hasKey (lookupFile_mem hlook2)), hlook2]
    rfl
  have hid := enableSnippets_id_of_none hread
  rw [installMonolithos_fetched_ok cfg env st es hf hw, hid]
  exact ⟨rfl, rfl, rfl, hlook2⟩

theorem c5_malformed_appearance_silent_witness :
    lookupFile ([(".obsidian/appearance.json".data, FileContent.malformed "not json")] :
        FileList) (appearancePath ".obsidian".data) = some (.malformed "not json") ∧
    (installMonolithos ".obsidian".data ⟨.fetched [], []⟩
      ⟨⟨[(".obsidian/appearance.json".data, FileContent.malformed "not json")], []⟩,
       ⟨"", false, ""⟩⟩).1 = .ok true ∧
    (installMonolithos ".obsidian".data ⟨.fetched [], []⟩
      ⟨⟨[(".obsidian/appearance.json".data, FileContent.malformed "not json")], []⟩,
       ⟨"", false, ""⟩⟩).2.1.settings.installed = true :=
  ⟨by decide,
   (c5_malformed_appearance_silent ".obsidian".data ⟨.fetched [], []⟩ []
     ⟨⟨[(".obsidian/appearance.json".data, FileContent.malformed "not json")], []⟩,
      ⟨"", false, ""⟩⟩ "not json" rfl (by decide) (by decide)).1,
   (c5_malformed_appearance_silent ".obsidian".data ⟨.fetched [], []⟩ []
     ⟨⟨[(".obsidian/appearance.json".data, FileContent.malformed "not json")], []⟩,
      ⟨"", false, ""⟩⟩ "not json" rfl (by decide) (by decide)).2.1⟩

/-- Claim C6: settings.installed is set to true only after every extracted
entry destined for a recognized target has been written and the appearance
edit has been attempted: on success the final vault is exactly the completed
write phase followed by the edit, every planned write target is present in
the final vault, the configure phase was reported, and installed=true — the
edit's outcome does not gate the flag; on any error installed keeps its
prior value. -/
theorem c6_installed_invariant (cfg : Str) (env : InstallEnv) (st : PluginState) :
    (∀ b, (installMonolithos cfg env st).1 = .ok b →
      b = true ∧
      (installMonolithos cfg env st).2.1.settings.installed = true ∧
      ∃ es, env.fetch = .fetched es ∧
        (writeLoop cfg env.writeFails st.vault (installFilesOf es)).2 = none ∧
        (installMonolithos cfg env st).2.1.vault =
          enableSnippets cfg (writeLoop cfg env.writeFails st.vault (installFilesOf es)).1 ∧
        (∀ t c, (t, c) ∈ installWrites cfg (installFilesOf es) →
          ∃ c2, (t, c2) ∈ (installMonolithos cfg env st).2.1.vault.files) ∧
        progressConfigure ∈ (installMonolithos cfg env st).2.2) ∧
    (∀ m, (installMonolithos cfg env st).1 = .error m →
      (installMonolithos cfg env st).2.1.settings.installed = st.settings.installed) := by
  constructor
  · intro b hok
    cases hf : env.fetch with
    | downloadFailure m =>
      rw [installMonolithos_downloadFailure cfg env st m hf] at hok
      simp at hok
    | decodeFailure m =>
      rw [installMonolithos_decodeFailure cfg env st m hf] at hok
      simp at hok
    | fetched es =>
      cases hw : (writeLoop cfg env.writeFails st.vault (installFilesOf es)).2 with
      | some m =>
        rw [installMonolithos_fetched_error cfg env st es m hf hw] at hok
        simp at hok
      | none =>
        have hb : b = true := by
          rw [installMonolithos_fetched_ok cfg env st es hf hw] at hok
          simp at hok
          exact hok
        rw [installMonolithos_fetched_ok cfg env st es hf hw]
        refine ⟨hb, rfl, es, rfl, hw, rfl, ?_, ?_⟩
        · intro t c htc
          have hkey : ∃ c2, (t, c2) ∈
              (writeLoop cfg env.writeFails st.vault (installFilesOf es)).1.files := by
            rw [writeLoop_files cfg env.writeFails (installFilesOf es) st.vault hw]
            exact hasKey_applyWrites (List.mem_map_of_mem Prod.fst htc)
          obtain ⟨c2, hc2⟩ := hkey
          exact hasKey_enableSnippets hc2
        · show progressConfigure ∈ [progressDownload, progressExtract, progressInstall,
            progressConfigure, progressComplete]
          decide
  · intro m herr
    cases hf : env.fetch with
    | downloadFailure m2 =>
      rw [installMonolithos_downloadFailure cfg env st m2 hf]
    | decodeFailure m2 =>
      rw [installMonolithos_decodeFailure cfg env st m2 hf]
    | fetched es =>
      cases hw : (writeLoop cfg env.writeFails st.vault (installFilesOf es)).2 with
      | some m2 =>
        rw [installMonolithos_fetched_error cfg env st es m2 hf hw]
      | none =>
        rw [installMonolithos_fetched_ok cfg env st es hf hw] at herr
        simp at herr

theorem c6_installed_invariant_witness :
    (installMonolithos ".obsidian".data ⟨.fetched [], []⟩
      ⟨⟨[], []⟩, ⟨"", false, ""⟩⟩).2.1.settings.installed = true ∧
    (installMonolithos ".obsidian".data ⟨.downloadFailure "boom", []⟩
      ⟨⟨[], []⟩, ⟨"", false, ""⟩⟩).2.1.settings.installed =
      (⟨"", false, ""⟩ : MonolithosInstallerSettings).installed :=
  ⟨((c6_installed_invariant ".obsidian".data ⟨.fetched [], []⟩
      ⟨⟨[], []⟩, ⟨"", false, ""⟩⟩).1 true rfl).2.1,
   (c6_installed_invariant ".obsidian".data ⟨.downloadFailure "boom", []⟩
      ⟨⟨[], []⟩, ⟨"", false, ""⟩⟩).2 "boom" rfl⟩

/-- Claim C8: in every successful run the progress callback receives exactly
the five human-readable phase strings, in the fixed strict order download,
extract/decode, install files, configure appearance, completion (in the
source each string is emitted just before its step starts). -/
theorem c8_progress_sequence (cfg : Str) (env : InstallEnv) (st : PluginState) (b : Bool)
    (h : (installMonolithos cfg env st).1 = .ok b) :
    (installMonolithos cfg env st).2.2 =
      [progressDownload, progressExtract, progressInstall, progressConfigure,
       progressComplete] := by
  cases hf : env.fetch with
  | downloadFailure m =>
    rw [installMonolithos_downloadFailure cfg env st m hf] at h
    simp at h
  | decodeFailure m =>
    rw [installMonolithos_decodeFailure cfg env st m hf] at h
    simp at h
  | fetched es =>
    cases hw : (writeLoop cfg env.writeFails st.vault (installFilesOf es)).2 with
    | some m =>
      rw [installMonolithos_fetched_error cfg env st es m hf hw] at h
      simp at h
    | none =>
      rw [installMonolithos_fetched_ok cfg env st es hf hw]

theorem c8_progress_sequence_witness :
    (installMonolithos ".obsidian".data ⟨.fetched [], []⟩
      ⟨⟨[], []⟩, ⟨"", false, ""⟩⟩).2.2 =
      [progressDownload, progressExtract, progressInstall, progressConfigure,
       progressComplete] :=
  c8_progress_sequence ".obsidian".data ⟨.fetched [], []⟩ ⟨⟨[], []⟩, ⟨"", false, ""⟩⟩ true rfl

/-- Claim C10: `enableSnippets` only appends to the enabled-snippets list —
every entry present before the call is still present, in its original
relative order (the prior list is a prefix of the new one) — and every field
of the appearance document other than the enabled-snippets list is unchanged. -/
theorem c10_enable_snippets_append_only (cfg : Str) (v : VaultFS) (a0 a1 : Appearance)
    (h0 : lookupFile v.files (appearancePath cfg) = some (.json a0))
    (h1 : lookupFile (enableSnippets cfg v).files (appearancePath cfg) = some (.json a1)) :
    a1.other = a0.other ∧
    ∃ new, a1.enabledCssSnippets.getD [] = a0.enabledCssSnippets.getD [] ++ new := by
  have hread : readAppearanceDoc cfg v = some a0 := by
    unfold readAppearanceDoc
    rw [if_pos (existsPath_of_hasKey (lookupFile_mem h0)), h0]
    rfl
  by_cases hd : existsPath v (snippetsDir cfg) = true
  · rw [enableSnippets_write hread hd, writeVault_files, lookupFile_writeFile_self] at h1
    have h2 : FileContent.json ⟨some (pushAll (a0.enabledCssSnippets.getD [])
        (snippetNames cfg v.files)), a0.other⟩ = FileContent.json a1 := by
      injection h1
    have ha1 : a1 = ⟨some (pushAll (a0.enabledCssSnippets.getD [])
        (snippetNames cfg v.files)), a0.other⟩ := by
      injection h2 with h3
      exact h3.symm
    obtain ⟨new, hnew⟩ :=
      pushAll_append_new (snippetNames cfg v.files) (a0.enabledCssSnippets.getD [])
    rw [ha1]
    exact ⟨rfl, new, hnew⟩
  · have hdf : existsPath v (snippetsDir cfg) = false := by
      cases h2 : existsPath v (snippetsDir cfg)
      · rfl
      · exact absurd h2 hd
    rw [enableSnippets_id_of_nodir hdf, h0] at h1
    have h2 : FileContent.json a0 = FileContent.json a1 := by
      injection h1
    have ha1 : a1 = a0 := by
      injection h2 with h3
      exact h3.symm
    rw [ha1]
    exact ⟨rfl, [], by simp⟩

theorem c10_enable_snippets_append_only_witness :
    (⟨some ["x".data, "monolithos-a".data], []⟩ : Appearance).other =
      (⟨some ["x".data], []⟩ : Appearance).other ∧
    ∃ new, (⟨some ["x".data, "monolithos-a".data], []⟩ : Appearance).enabledCssSnippets.getD [] =
      (⟨some ["x".data], []⟩ : Appearance).enabledCssSnippets.getD [] ++ new :=
  c10_enable_snippets_append_only ".obsidian".data
    ⟨[(".obsidian/appearance.json".data, .json ⟨some ["x".data], []⟩),
      (".obsidian/snippets/monolithos-a.css".data, .bin [])], []⟩
    ⟨some ["x".data], []⟩ ⟨some ["x".data, "monolithos-a".data], []⟩ (by decide) (by decide)

/-- Claim C7 (amended): the appearance editor reads the JSON document at the
fixed path when present, else starts from an empty object; when the snippets
directory exists and no read/parse error occurs, it writes the resulting
document back to that path (the stored structured document stands for the
pretty-printed `JSON.stringify(..., null, 2)` serialization, which is host
library behaviour); when the snippets directory does not exist, nothing is
written — even though no error occurred. -/
theorem c7_appearance_editor (cfg : Str) (v : VaultFS) :
    (existsPath v (snippetsDir cfg) = false → enableSnippets cfg v = v) ∧
    (∀ a, lookupFile v.files (appearancePath cfg) = some (.json a) →
      existsPath v (snippetsDir cfg) = true →
      lookupFile (enableSnippets cfg v).files (appearancePath cfg) =
        some (.json ⟨some (pushAll (a.enabledCssSnippets.getD [])
          (snippetNames cfg v.files)), a.other⟩)) ∧
    (existsPath v (appearancePath cfg) = false →
      existsPath v (snippetsDir cfg) = true →
      lookupFile (enableSnippets cfg v).files (appearancePath cfg) =
        some (.json ⟨some (pushAll [] (snippetNames cfg v.files)), []⟩)) := by
  refine ⟨fun hd => enableSnippets_id_of_nodir hd, ?_, ?_⟩
  · intro a h0 hd
    have hread : readAppearanceDoc cfg v = some a := by
      unfold readAppearanceDoc
      rw [if_pos (existsPath_of_hasKey (lookupFile_mem h0)), h0]
      rfl
    rw [enableSnippets_write hread hd, writeVault_files, lookupFile_writeFile_self]
  · intro hnx hd
    have hread : readAppearanceDoc cfg v = some ⟨none, []⟩ := by
      unfold readAppearanceDoc
      rw [if_neg (by rw [hnx]; exact Bool.false_ne_true)]
    rw [enableSnippets_write hread hd, writeVault_files, lookupFile_writeFile_self]
    rfl

/-- Claim C7 counterexample: on the empty vault (no snippets directory) the
editor runs without any error yet writes nothing — the appearance document is
absent before and still absent after, contradicting "writes the resulting
document back to that path" as stated for every vault state. -/
theorem c7_appearance_editor_counterexample :
    enableSnippets ".obsidian".data ⟨[], []⟩ = ⟨[], []⟩ ∧
    lookupFile (enableSnippets ".obsidian".data ⟨[], []⟩).files
      (appearancePath ".obsidian".data) = none :=
  ⟨by decide, by decide⟩

theorem c7_appearance_editor_witness :
    lookupFile (enableSnippets ".obsidian".data
        ⟨[(".obsidian/appearance.json".data, .json ⟨some [], [("k".data, "v".data)]⟩),
          (".obsidian/snippets/monolithos-x.css".data, .bin [7])], []⟩).files
      (appearancePath ".obsidian".data) =
      some (.json ⟨some ["monolithos-x".data], [("k".data, "v".data)]⟩) :=
  (c7_appearance_editor ".obsidian".data
    ⟨[(".obsidian/appearance.json".data, .json ⟨some [], [("k".data, "v".data)]⟩),
      (".obsidian/snippets/monolithos-x.css".data, .bin [7])], []⟩).2.1
    ⟨some [], [("k".data, "v".data)]⟩ (by decide) (by decide)

/-- Claim C4 (amended): running the install twice in succession with the same
archive is idempotent — the entire resulting plugin state (installed file
contents, created directories, settings, and hence the enabled-snippets
list) after two runs equals the state after one run; and the installer never
appends a name that is already present, so the enabled-snippets list contains
no duplicates provided it contained none before the install (a list that
already held duplicates keeps them — see the counterexample). -/
theorem c4_install_idempotent (cfg : Str) (entries : List ZipEntry) (st : PluginState) :
    (installMonolithos cfg ⟨.fetched entries, []⟩
        (installMonolithos cfg ⟨.fetched entries, []⟩ st).2.1).2.1 =
      (installMonolithos cfg ⟨.fetched entries, []⟩ st).2.1 ∧
    (enabledNodupB cfg st.vault.files = true →
      enabledNodupB cfg
        (installMonolithos cfg ⟨.fetched entries, []⟩ st).2.1.vault.files = true) := by
  have hw1 : (writeLoop cfg ([] : List Str) st.vault (installFilesOf entries)).2 = none :=
    writeLoop_none cfg (installFilesOf entries) st.vault
  have h1 : installMonolithos cfg ⟨.fetched entries, []⟩ st =
      (.ok true,
       { vault := enableSnippets cfg (writeLoop cfg [] st.vault (installFilesOf entries)).1,
         settings := { st.settings with installed := true, installedVersion := "1.0.0" } },
       [progressDownload, progressExtract, progressInstall, progressConfigure,
        progressComplete]) :=
    installMonolithos_fetched_ok cfg ⟨.fetched entries, []⟩ st entries rfl hw1
  have hw2 : (writeLoop cfg ([] : List Str)
      (enableSnippets cfg (writeLoop cfg [] st.vault (installFilesOf entries)).1)
      (installFilesOf entries)).2 = none :=
    writeLoop_none cfg (installFilesOf entries) _
  have h2 : installMonolithos cfg ⟨.fetched entries, []⟩
      ⟨enableSnippets cfg (writeLoop cfg [] st.vault (installFilesOf entries)).1,
       { st.settings with installed := true, installedVersion := "1.0.0" }⟩ =
      (.ok true,
       { vault := enableSnippets cfg (writeLoop cfg []
           (enableSnippets cfg (writeLoop cfg [] st.vault (installFilesOf entries)).1)
           (installFilesOf entries)).1,
         settings := { st.settings with installed := true, installedVersion := "1.0.0" } },
       [progressDownload, progressExtract, progressInstall, progressConfigure,
        progressComplete]) :=
    installMonolithos_fetched_ok cfg ⟨.fetched entries, []⟩
      ⟨enableSnippets cfg (writeLoop cfg [] st.vault (installFilesOf entries)).1,
       { st.settings with installed := true, installedVersion := "1.0.0" }⟩ entries rfl hw2
  constructor
  · rw [h1, h2]
    show (⟨enableSnippets cfg (writeLoop cfg []
        (enableSnippets cfg (writeLoop cfg [] st.vault (installFilesOf entries)).1)
        (installFilesOf entries)).1,
      { st.settings with installed := true, installedVersion := "1.0.0" }⟩ : PluginState) =
      ⟨enableSnippets cfg (writeLoop cfg [] st.vault (installFilesOf entries)).1,
       { st.settings with installed := true, installedVersion := "1.0.0" }⟩
    rw [installVault_idem cfg (installFilesOf entries) st.vault]
  · intro hnd
    rw [h1]
    show enabledNodupB cfg
      (enableSnippets cfg (writeLoop cfg [] st.vault (installFilesOf entries)).1).files = true
    have happ := appearance_not_in_writeKeys cfg (installFilesOf entries)
    have hfiles := writeLoop_files cfg [] (installFilesOf entries) st.vault hw1
    have hlookeq : lookupFile (writeLoop cfg [] st.vault (installFilesOf entries)).1.files
        (appearancePath cfg) = lookupFile st.vault.files (appearancePath cfg) := by
      rw [hfiles]
      exact lookupFile_applyWrites happ
    refine enabledNodupB_enableSnippets ?_
    rw [enabledNodupB_congr hlookeq]
    exact hnd

/-- Claim C4 counterexample: starting from a vault whose appearance document
already lists the same snippet name twice, running the install twice leaves
the duplicate in place, so "the enabled-snippets list contains no duplicate
entries" is false as stated for every initial vault state. -/
theorem c4_install_idempotent_counterexample :
    lookupFile (installMonolithos ".obsidian".data ⟨.fetched [], []⟩
        (installMonolithos ".obsidian".data ⟨.fetched [], []⟩
          ⟨⟨[(".obsidian/appearance.json".data, .json ⟨some ["x".data, "x".data], []⟩)], []⟩,
           ⟨"", false, ""⟩⟩).2.1).2.1.vault.files (appearancePath ".obsidian".data) =
      some (.json ⟨some ["x".data, "x".data], []⟩) ∧
    ¬ (["x".data, "x".data] : List Str).Nodup :=
  ⟨by decide, by decide⟩

theorem c4_install_idempotent_witness :
    enabledNodupB ".obsidian".data
      ((⟨⟨[], []⟩, ⟨"", false, ""⟩⟩ : PluginState)).vault.files = true ∧
    (installMonolithos ".obsidian".data ⟨.fetched [], []⟩
        (installMonolithos ".obsidian".data ⟨.fetched [], []⟩
          ⟨⟨[], []⟩, ⟨"", false, ""⟩⟩).2.1).2.1 =
      (installMonolithos ".obsidian".data ⟨.fetched [], []⟩ ⟨⟨[], []⟩, ⟨"", false, ""⟩⟩).2.1 ∧
    enabledNodupB ".obsidian".data
      (installMonolithos ".obsidian".data ⟨.fetched [], []⟩
        ⟨⟨[], []⟩, ⟨"", false, ""⟩⟩).2.1.vault.files = true :=
  ⟨by decide,
   (c4_install_idempotent ".obsidian".data [] ⟨⟨[], []⟩, ⟨"", false, ""⟩⟩).1,
   (c4_install_idempotent ".obsidian".data [] ⟨⟨[], []⟩, ⟨"", false, ""⟩⟩).2 (by decide)⟩
